import Mathlib

/-!
Verification development for the dmc_attendance_log attendance aggregation
engine.  The definitions below are a shallow embedding of the JavaScript
source (src/apps-script/Code.gs, with src/functions/index.js for the parts
it alone implements).  Machine doubles appear in the source only in the
attendance-rate expression; it is embedded as exact rational rounding, which
agrees with the double computation on every reachable divisor (see
`roundPct`).  Timezone-dependent renderings of clock instants
(Utilities.formatDate with a time pattern) are carried as opaque string
fields on the values that hold them; date-only cells carry the civil
components that formatting in the script timezone would print.
-/

/-! ## Characters, digit strings and JS string helpers -/

/-- Decimal digit character for a value below ten. -/
def digitChar : Nat → Char
| 0 => '0' | 1 => '1' | 2 => '2' | 3 => '3' | 4 => '4'
| 5 => '5' | 6 => '6' | 7 => '7' | 8 => '8' | 9 => '9' | _ => '?'

/-- Numeric value of a decimal digit character. -/
def digitVal (c : Char) : Nat := c.toNat - 48

/-- Value of a decimal digit string, as JavaScript Number / parseInt read one. -/
def digitsToNat (cs : List Char) : Nat := cs.foldl (fun a c => 10 * a + digitVal c) 0

/-- Fuel-driven decimal rendering helper (structural so that it computes). -/
def natDigitsAux : Nat → Nat → List Char
| 0, _ => []
| fuel+1, n => if n < 10 then [digitChar n] else natDigitsAux fuel (n / 10) ++ [digitChar (n % 10)]

/-- Decimal rendering of a natural number, as JavaScript String(n) prints one. -/
def natDigits (n : Nat) : List Char := natDigitsAux (n + 1) n

/-- Left zero padding to a minimum width: String.prototype.padStart(w, "0"),
and also the behaviour of the SimpleDateFormat patterns yyyy / MM / dd used
by Utilities.formatDate (pad to the width, keep all digits if longer). -/
def padNum (w n : Nat) : List Char := List.replicate (w - (natDigits n).length) '0' ++ natDigits n

/-- White space in the JavaScript sense: the characters matched by \s and
stripped by String.prototype.trim. -/
def isJsWs (c : Char) : Bool :=
  c == ' ' || c == '\t' || c == '\n' || c == '\r' || c == '\x0b' || c == '\x0c' ||
  c == '\u00a0' || c == '\u1680' || c == '\u2000' || c == '\u2001' || c == '\u2002' ||
  c == '\u2003' || c == '\u2004' || c == '\u2005' || c == '\u2006' || c == '\u2007' ||
  c == '\u2008' || c == '\u2009' || c == '\u200a' || c == '\u2028' || c == '\u2029' ||
  c == '\u202f' || c == '\u205f' || c == '\u3000' || c == '\ufeff'

/-- String.prototype.trim: drop leading and trailing white space. -/
def jsTrim (s : String) : String :=
  String.mk (((s.data.dropWhile isJsWs).reverse.dropWhile isJsWs).reverse)

/-- Upper-casing of one character.  The source applies toUpperCase only to
enum codes and to the TEST-nickname comparison; the Basic Latin mapping is
the relevant one for those values. -/
def jsUpperChar (c : Char) : Char :=
  if c.isLower then Char.ofNat (c.toNat - 32) else c

/-- String.prototype.toUpperCase on the Basic Latin range. -/
def jsToUpper (s : String) : String := String.mk (s.data.map jsUpperChar)

/-- Lower-casing of one character (Basic Latin range). -/
def jsLowerChar (c : Char) : Char :=
  if c.isUpper then Char.ofNat (c.toNat + 32) else c

/-- String.prototype.toLowerCase on the Basic Latin range. -/
def jsToLower (s : String) : String := String.mk (s.data.map jsLowerChar)

/-! ## The two key regexes

isValidDateKey_ tests the anchored regex for four digits, a slash, two
digits, a slash, two digits; isValidMonthKey_ tests four digits, a dash,
two digits.  Both are unrolled positionally below (an anchored regex of
fixed-width character classes is exactly a length check plus per-position
class checks). -/

/-- Test of the anchored date-key regex used by isValidDateKey_. -/
def isValidDateKey (s : String) : Bool :=
  let cs := s.data
  cs.length == 10 && (cs.getD 0 ' ').isDigit && (cs.getD 1 ' ').isDigit &&
    (cs.getD 2 ' ').isDigit && (cs.getD 3 ' ').isDigit && cs.getD 4 ' ' == '/' &&
    (cs.getD 5 ' ').isDigit && (cs.getD 6 ' ').isDigit && cs.getD 7 ' ' == '/' &&
    (cs.getD 8 ' ').isDigit && (cs.getD 9 ' ').isDigit

/-- Test of the anchored month-key regex used by isValidMonthKey_. -/
def isValidMonthKey (s : String) : Bool :=
  let cs := s.data
  cs.length == 7 && (cs.getD 0 ' ').isDigit && (cs.getD 1 ' ').isDigit &&
    (cs.getD 2 ' ').isDigit && (cs.getD 3 ' ').isDigit && cs.getD 4 ' ' == '-' &&
    (cs.getD 5 ' ').isDigit && (cs.getD 6 ' ').isDigit

/-! ## The JavaScript Date civil calendar

new Date(y, mIdx, d) normalizes its arguments over the proleptic Gregorian
calendar: the month index is folded into the year, an out-of-range day rolls
into adjacent months, and a year argument between 0 and 99 is read as
1900 + y.  getDay is computed from the epoch day number (1970-01-01 was a
Thursday).  The embedding keeps a normalized civil triple. -/

/-- Normalized civil date (month 1..12 after normalization). -/
structure Civil where
  y : Int
  m : Int
  d : Int
deriving Repr, DecidableEq

/-- Gregorian leap-year test. -/
def isLeap (y : Int) : Bool := (y % 4 == 0 && y % 100 != 0) || y % 400 == 0

/-- Length of a Gregorian month. -/
def daysInMonthG (y : Int) (m : Int) : Int :=
  if m == 2 then (if isLeap y then 29 else 28)
  else if m == 4 || m == 6 || m == 9 || m == 11 then 30 else 31

/-- Days since 1970-01-01 of a civil date (standard civil-from-days inverse,
valid for all integer years). -/
def daysFromCivil (y m d : Int) : Int :=
  let y2 := if m ≤ 2 then y - 1 else y
  let era := y2.fdiv 400
  let yoe := y2 - era * 400
  let doy := (153 * (if m > 2 then m - 3 else m + 9) + 2).fdiv 5 + d - 1
  let doe := yoe * 365 + yoe.fdiv 4 - yoe.fdiv 100 + doy
  era * 146097 + doe - 719468

/-- Date.prototype.getDay: 0 = Sunday .. 6 = Saturday. -/
def jsGetDay (c : Civil) : Int := (daysFromCivil c.y c.m c.d + 4).fmod 7

/-- Day-of-month normalization by stepping across month boundaries.  The
fuel bounds the number of month steps; every call in this development moves
at most four months (day arguments are 0..99). -/
def normDay : Nat → Int → Int → Int → Civil
| 0, y, m, d => ⟨y, m, d⟩
| fuel+1, y, m, d =>
  if d < 1 then
    let y2 := if m == 1 then y - 1 else y
    let m2 := if m == 1 then 12 else m - 1
    normDay fuel y2 m2 (d + daysInMonthG y2 m2)
  else if d > daysInMonthG y m then
    normDay fuel (if m == 12 then y + 1 else y) (if m == 12 then 1 else m + 1) (d - daysInMonthG y m)
  else ⟨y, m, d⟩

/-- The value new Date(yArg, mIdx, day) denotes, as a normalized civil date
in the runtime (script) timezone. -/
def jsMakeDate (yArg mIdx day : Int) : Civil :=
  let yr := if 0 ≤ yArg && yArg ≤ 99 then yArg + 1900 else yArg
  let ym := yr * 12 + mIdx
  normDay 48 (ym.fdiv 12) (ym.fmod 12 + 1) day

/-! ## CalendarPolicy: countPossibleMeetingsForMonth

Faithful to countPossibleMeetingsForMonth_ (Code.gs) and the identical
countPossibleMeetingsForMonth (index.js): regex check, Number() of the two
dash-separated fields (under the regex these are the fixed slices below),
falsy test on year and month, then new Date(y, m, 0).getDate() for the day
count and new Date(y, m-1, d).getDay() membership in the set 2, 4, 6
(Tuesday, Thursday, Saturday). -/

/-- Count of eligible meeting days (Tue/Thu/Sat) the source computes for a
month key. -/
def countPossibleMeetingsForMonth (monthKey : String) : Nat :=
  if isValidMonthKey monthKey then
    let y := digitsToNat (monthKey.data.take 4)
    let m := digitsToNat (monthKey.data.drop 5)
    if y == 0 || m == 0 then 0
    else
      let dim := (jsMakeDate (↑y) (↑m) 0).d.toNat
      (List.range dim).countP fun i =>
        let wd := jsGetDay (jsMakeDate (↑y) ((↑m : Int) - 1) ((i : Int) + 1))
        wd == 2 || wd == 4 || wd == 6
  else 0

/-! ## DateKeyNormalizer: normalizeMeetingDateKey_ -/

/-- A meetingDate sheet cell: either a native Date (carried as the civil
components Utilities.formatDate would print for it in the script timezone)
or a raw string. -/
inductive DateCell
| dateVal (y m d : Nat)
| strVal (s : String)
deriving Repr, DecidableEq

/-- Up to two leading decimal digits (maximal munch).  For the legacy regex
groups (\d of one or two digits followed by a literal dot or the anchor)
maximal munch plus a follow-up check is equivalent to the backtracking
semantics, because giving a digit back can only place a digit where the
pattern then demands a dot or the end. -/
def takeUpTo2Digits : List Char → List Char × List Char
| [] => ([], [])
| c1 :: rest =>
  if c1.isDigit then
    match rest with
    | c2 :: rest2 => if c2.isDigit then ([c1, c2], rest2) else ([c1], rest)
    | [] => ([c1], [])
  else ([], c1 :: rest)

/-- Match of the anchored legacy dotted-date regex (four digit year, dot,
optional white space, one or two digit month, dot, optional white space, one
or two digit day).  Returns the year digits and the numeric month and day
group values. -/
def legacyMatch : List Char → Option (List Char × Nat × Nat)
| c1 :: c2 :: c3 :: c4 :: c5 :: rest =>
  if c1.isDigit && c2.isDigit && c3.isDigit && c4.isDigit && c5 == '.' then
    match takeUpTo2Digits (rest.dropWhile isJsWs) with
    | ([], _) => none
    | (g2, r2) =>
      match r2 with
      | c6 :: r3 =>
        if c6 == '.' then
          match takeUpTo2Digits (r3.dropWhile isJsWs) with
          | ([], _) => none
          | (g3, []) => some ([c1, c2, c3, c4], digitsToNat g2, digitsToNat g3)
          | (_, _ :: _) => none
        else none
      | [] => none
  else none
| _ => none

/-- Conversion of a meetingDate cell into the canonical yyyy/MM/dd key, or
the empty string; faithful to normalizeMeetingDateKey_ including the initial
String() + trim() on non-Date cells. -/
def normalizeMeetingDateKey (cell : DateCell) : String :=
  match cell with
  | .dateVal y m d => String.mk (padNum 4 y ++ '/' :: padNum 2 m ++ '/' :: padNum 2 d)
  | .strVal s0 =>
    let s := jsTrim s0
    if s = "" then ""
    else if isValidDateKey s then s
    else
      match legacyMatch s.data with
      | some (yd, mo, dd) => String.mk (yd ++ '/' :: padNum 2 mo ++ '/' :: padNum 2 dd)
      | none => ""

/-! ## EnumCodec -/

/-- Team enum map, codes to sheet labels, in source (insertion) order. -/
def TEAM_LABEL : List (String × String) :=
  [("T1", "1팀"), ("T2", "2팀"), ("T3", "3팀"), ("T4", "4팀"), ("T5", "5팀"), ("S", "S팀")]

/-- Meeting-type enum map, codes to sheet labels, in source order. -/
def MEETING_TYPE_LABEL : List (String × String) :=
  [("ETC", "기타"), ("TUE", "화요일"), ("THU", "목요일"), ("SAT", "토요일")]

/-- Reverse lookup labelToCode_: first code (in insertion order) whose label
matches, empty string when none does. -/
def labelToCode (mapObj : List (String × String)) (label : String) : String :=
  match mapObj.find? (fun p => p.2 == label) with
  | some p => p.1
  | none => ""

/-- Forward lookup of an enum map (TEAM_LABEL[code]); none models the
undefined result for an unknown code. -/
def enumLabel (mapObj : List (String × String)) (code : String) : Option String :=
  (mapObj.find? (fun p => p.1 == code)).map (fun p => p.2)

/-- The expression labelToCode_(map, label) || null of the item projections. -/
def optCode (c : String) : Option String := if c = "" then none else some c

/-! ## dateKeyToDate_ and formatDateKeyForSheets -/

/-- Conversion of a date key into the Date the source builds from it
(dateKeyToDate_): regex check, Number() of the three slash-separated fields
(under the regex these are the fixed slices below), falsy test on each, then
new Date(y, m - 1, d). -/
def dateKeyToDate (k : String) : Option Civil :=
  if isValidDateKey k then
    let y := digitsToNat (k.data.take 4)
    let m := digitsToNat ((k.data.drop 5).take 2)
    let d := digitsToNat (k.data.drop 8)
    if y == 0 || m == 0 || d == 0 then none
    else some (jsMakeDate (↑y) ((↑m : Int) - 1) (↑d))
  else none

/-- Rendering of a valid date key in the legacy dotted sheet format
(formatDateKeyForSheets, index.js): year kept verbatim, month and day as
parseInt values without padding; a non-matching input is returned unchanged. -/
def formatDateKeyForSheets (k : String) : String :=
  if isValidDateKey k then
    String.mk (k.data.take 4 ++ '.' :: ' ' :: natDigits (digitsToNat ((k.data.drop 5).take 2)) ++
      '.' :: ' ' :: natDigits (digitsToNat (k.data.drop 8)))
  else k

/-! ## Rows, item projections and sorting -/

/-- Timestamp cell (column A): a Date carrying its epoch milliseconds and
its opaque formatKstKoreanAmPm_ rendering, or a non-Date cell as a string. -/
inductive TsCell
| dateTs (millis : Int) (rendered : String)
| strTs (s : String)
deriving Repr, DecidableEq

/-- One data row of the response sheet (columns A..E). -/
structure Row where
  tsCell : TsCell
  nickname : String
  teamLabel : String
  meetingTypeLabel : String
  dateCell : DateCell
deriving Repr, DecidableEq

/-- Numeric sort key of a row timestamp (tsDate.getTime(), none when the
cell is not a Date). -/
def rowTs : TsCell → Option Int
| .dateTs ms _ => some ms
| .strTs _ => none

/-- The timeText projection: rendering for a Date cell, trimmed string
otherwise. -/
def rowTimeText : TsCell → String
| .dateTs _ r => r
| .strTs s => jsTrim s

/-- Item projection before the internal ts field is stripped. -/
structure RawItem where
  nickname : String
  team : Option String
  teamLabel : String
  meetingType : Option String
  meetingTypeLabel : String
  meetingDate : String
  timeText : String
  ts : Option Int
deriving Repr, DecidableEq

/-- Item as returned to the caller (ts stripped). -/
structure Item where
  nickname : String
  team : Option String
  teamLabel : String
  meetingType : Option String
  meetingTypeLabel : String
  meetingDate : String
  timeText : String
deriving Repr, DecidableEq

/-- Removal of the internal ts field. -/
def RawItem.strip (it : RawItem) : Item :=
  ⟨it.nickname, it.team, it.teamLabel, it.meetingType, it.meetingTypeLabel, it.meetingDate, it.timeText⟩

/-- Insertion step of a stable descending sort on (ts ?? 0). -/
def insertByTsDesc (x : RawItem) : List RawItem → List RawItem
| [] => [x]
| y :: ys => if y.ts.getD 0 < x.ts.getD 0 then x :: y :: ys else y :: insertByTsDesc x ys

/-- Stable sort by (b.ts ?? 0) - (a.ts ?? 0), i.e. most recent first with
missing timestamps treated as oldest.  Array.prototype.sort is stable, and a
stable sort under a total preorder has a unique result, so insertion sorting
is a faithful embedding. -/
def sortByTsDesc (l : List RawItem) : List RawItem :=
  l.foldl (fun acc x => insertByTsDesc x acc) []

/-! ## StatusAggregator: getStatusForDate_ -/

/-- Per-date view. -/
structure StatusView where
  date : String
  count : Nat
  items : List Item
deriving Repr, DecidableEq

/-- Row filter and projection of the status loop: normalize the date cell,
skip on failure or mismatch, recover enum codes from labels. -/
def statusKeep (dateKey : String) (row : Row) : Option RawItem :=
  let nickname := jsTrim row.nickname
  let teamLabel := jsTrim row.teamLabel
  let meetingTypeLabel := jsTrim row.meetingTypeLabel
  let rowDateKey := normalizeMeetingDateKey row.dateCell
  if rowDateKey = "" then none
  else if rowDateKey ≠ dateKey then none
  else some
    { nickname := nickname
      team := optCode (labelToCode TEAM_LABEL teamLabel)
      teamLabel := teamLabel
      meetingType := optCode (labelToCode MEETING_TYPE_LABEL meetingTypeLabel)
      meetingTypeLabel := meetingTypeLabel
      meetingDate := dateKey
      timeText := rowTimeText row.tsCell
      ts := rowTs row.tsCell }

/-- Per-date aggregation getStatusForDate_ over the data rows of the sheet
(the lastRow < 2 branch is the empty rows list). -/
def getStatusForDate (rows : List Row) (dateKey : String) : StatusView :=
  if rows.isEmpty then ⟨dateKey, 0, []⟩
  else
    let out := (sortByTsDesc (rows.filterMap (statusKeep dateKey))).map RawItem.strip
    ⟨dateKey, out.length, out⟩

/-! ## HistoryAggregator: getHistoryForNicknameMonth_ -/

/-- The summary key of a kept item: meetingTypeLabel || typeCode || the
sentinel label (Code.gs); with an empty label the recovered code is always
null, so the sentinel is what an empty label yields. -/
def RawItem.typeKey (it : RawItem) : String :=
  if it.meetingTypeLabel ≠ "" then it.meetingTypeLabel
  else
    match it.meetingType with
    | some c => c
    | none => "미지정"

/-- The update summaryByType[k] = (summaryByType[k] || 0) + 1 on an
insertion-ordered association list (JavaScript object string keys keep
insertion order). -/
def bumpKey (l : List (String × Nat)) (k : String) : List (String × Nat) :=
  if l.any (fun p => p.1 == k) then
    l.map (fun p => if p.1 == k then (p.1, p.2 + 1) else p)
  else l ++ [(k, 1)]

/-- Row filter and projection of the history loop: skip empty nicknames,
case-insensitive nickname match, normalize the date cell, rebuild the Date,
keep only the requested year and month. -/
def historyKeep (nickKey : String) (targetYear targetMonth : Nat) (row : Row) : Option RawItem :=
  let rowNick := jsTrim row.nickname
  if rowNick = "" then none
  else if jsToLower rowNick ≠ nickKey then none
  else
    let teamLabel := jsTrim row.teamLabel
    let meetingTypeLabel := jsTrim row.meetingTypeLabel
    let rowDateKey := normalizeMeetingDateKey row.dateCell
    if rowDateKey = "" then none
    else
      match dateKeyToDate rowDateKey with
      | none => none
      | some c =>
        if c.y == (targetYear : Int) && c.m == (targetMonth : Int) then
          some
            { nickname := rowNick
              team := optCode (labelToCode TEAM_LABEL teamLabel)
              teamLabel := teamLabel
              meetingType := optCode (labelToCode MEETING_TYPE_LABEL meetingTypeLabel)
              meetingTypeLabel := meetingTypeLabel
              meetingDate := rowDateKey
              timeText := rowTimeText row.tsCell
              ts := rowTs row.tsCell }
        else none

/-- The kept records of a history query, in row order.  The caller passes
monthKey only after isValidMonthKey_, under which the Number() of the two
dash-separated fields are the fixed slices below. -/
def historyKept (rows : List Row) (nickname monthKey : String) : List RawItem :=
  rows.filterMap
    (historyKeep (jsToLower (jsTrim nickname)) (digitsToNat (monthKey.data.take 4))
      (digitsToNat (monthKey.data.drop 5)))

/-- Per-nickname-per-month view.  The source emits a field named
summaryByType on the main path but a field named summary on the empty-sheet
path; both are carried as options so the emitted shape is visible. -/
structure HistoryView where
  nickname : String
  month : String
  count : Nat
  items : List Item
  summary : Option (List (String × Nat))
  summaryByType : Option (List (String × Nat))
  totalPossible : Nat
  attendanceRate : Nat
deriving Repr, DecidableEq

/-- Round-half-up of 100 * c / p (p positive).  The source computes
Math.round((c / p) * 100) in doubles; for every reachable positive divisor
(a Tue/Thu/Sat count of a real month, 12..15) the exact value is never
within 1/30 of a half integer while the double error is far smaller, and for
counts large enough to matter both sides are capped by the min that follows,
so exact rounding is extensionally the double computation here. -/
def roundPct (c p : Nat) : Nat := (200 * c + p) / (2 * p)

/-- Per-nickname-per-month aggregation getHistoryForNicknameMonth_ over the
data rows of the sheet (the lastRow < 2 branch is the empty rows list). -/
def getHistoryForNicknameMonth (rows : List Row) (nickname monthKey : String) : HistoryView :=
  if rows.isEmpty then
    { nickname := nickname
      month := monthKey
      count := 0
      items := []
      summary := some []
      summaryByType := none
      totalPossible := countPossibleMeetingsForMonth monthKey
      attendanceRate := 0 }
  else
    let kept := historyKept rows nickname monthKey
    let out := (sortByTsDesc kept).map RawItem.strip
    let possible := countPossibleMeetingsForMonth monthKey
    let rate := if possible > 0 then min 100 (roundPct out.length possible) else 0
    { nickname := nickname
      month := monthKey
      count := out.length
      items := out
      summary := none
      summaryByType := some (kept.foldl (fun acc it => bumpKey acc it.typeKey) [])
      totalPossible := possible
      attendanceRate := rate }

/-! ## Write path and cached status reads (doPost / doGet) -/

/-- The ambient clock of one request: epoch milliseconds of now, the opaque
formatKstKoreanAmPm_ rendering of now, and the opaque yyyyMMdd_HHmmss stamp
makeTestNickname_ formats from now. -/
structure Clock where
  millis : Int
  timeText : String
  stamp : String
deriving Repr, DecidableEq

/-- Server state: the data rows of the target sheet and the status cache
(newest entry first; a fresh put shadows older entries for the same key,
and every read in the claims happens inside the TTL window, so expiry is
not modelled). -/
structure St where
  rows : List Row
  statusCache : List (String × StatusView)
deriving Repr, DecidableEq

/-- Cache key of a per-date status entry. -/
def statusCacheKey (dateKey : String) : String := "status:" ++ dateKey

/-- The date cell appendRow stores for a write: the Date built by
dateKeyToDate_, later formatted back by the normalizer. -/
def DateCell.ofCivil (c : Civil) : DateCell := .dateVal c.y.toNat c.m.toNat c.d.toNat

/-- The write path of doPost: trim and validate the payload, replace a TEST
nickname, append the row, recompute the status for the written date and
overwrite its cache entry.  Validation failures (whose distinct error
strings the claims never inspect) are collapsed to none with the state
unchanged. -/
def recordAttendance (st : St) (clock : Clock) (nickname team meetingType meetingDate : String) :
    Option (String × StatusView) × St :=
  let nicknameRaw := jsTrim nickname
  let teamCode := jsToUpper (jsTrim team)
  let typeCode := jsToUpper (jsTrim meetingType)
  let meetingDateKey := jsTrim meetingDate
  if nicknameRaw = "" ∨ teamCode = "" ∨ typeCode = "" ∨ meetingDateKey = "" then (none, st)
  else if isValidDateKey meetingDateKey then
    match enumLabel TEAM_LABEL teamCode, enumLabel MEETING_TYPE_LABEL typeCode,
        dateKeyToDate meetingDateKey with
    | some teamLabel, some meetingTypeLabel, some civ =>
      let nicknameStored :=
        if jsToUpper nicknameRaw = "TEST" then "TEST_" ++ clock.stamp else nicknameRaw
      let rows2 := st.rows ++
        [⟨.dateTs clock.millis clock.timeText, nicknameStored, teamLabel, meetingTypeLabel,
          DateCell.ofCivil civ⟩]
      let status := getStatusForDate rows2 meetingDateKey
      (some (nicknameStored, status), ⟨rows2, (statusCacheKey meetingDateKey, status) :: st.statusCache⟩)
    | _, _, _ => (none, st)
  else (none, st)

/-- The status read of doGet: validate the date key, answer from the cache
when an entry is present (a cached view deserializes to the view that was
stored), otherwise aggregate from the sheet.  The repopulation of the cache
on a miss does not change the returned view and is not carried. -/
def getStatus (st : St) (dateKey : String) : Option StatusView :=
  if isValidDateKey dateKey then
    match st.statusCache.find? (fun p => p.1 == statusCacheKey dateKey) with
    | some p => some p.2
    | none => some (getStatusForDate st.rows dateKey)
  else none

/-! ## Spec-side reference definitions -/

/-- Canonical zero-padded rendering of a date key from its numeric fields;
used to quantify over well-formed date keys in the theorems. -/
def mkDateKey (y m d : Nat) : String :=
  String.mk (padNum 4 y ++ '/' :: padNum 2 m ++ '/' :: padNum 2 d)

/-- Weekday by Zeller's congruence (0 = Saturday, 3 = Tuesday, 5 =
Thursday), written from the claim as an independent reference for the
brute-force check; months January and February are counted as months 13 and
14 of the preceding year. -/
def zellerWeekday (y m d : Nat) : Nat :=
  let y2 := if m ≤ 2 then y - 1 else y
  let m2 := if m ≤ 2 then m + 12 else m
  let k := y2 % 100
  let j := y2 / 100
  (d + (13 * (m2 + 1)) / 5 + k + k / 4 + j / 4 + 5 * j) % 7

/-- Brute-force reference of the claim for January 2026: enumerate every day
of the month and count those whose weekday is Tuesday, Thursday or
Saturday. -/
def specReferenceJan2026Count : Nat :=
  (List.range 31).countP fun i =>
    zellerWeekday 2026 1 (i + 1) == 3 || zellerWeekday 2026 1 (i + 1) == 5 ||
      zellerWeekday 2026 1 (i + 1) == 0

/-- Width condition under which a date cell renders into the fixed-width
yyyy/MM/dd fields: the year fits four digits and month and day fit two.
Every real Date has month 1..12 and day 1..31; the year bound excludes the
five-digit years a Date can carry (and which the write path can store for a
rolled-over key such as 9999/99/99). -/
def DateCell.widthOk : DateCell → Prop
| .dateVal y m d => y ≤ 9999 ∧ m ≤ 99 ∧ d ≤ 99
| .strVal _ => True

/-! ## Helper lemmas: digits and decimal renderings -/

theorem char_digit_cases (c : Char) (h : c.isDigit = true) :
    c = '0' ∨ c = '1' ∨ c = '2' ∨ c = '3' ∨ c = '4' ∨
    c = '5' ∨ c = '6' ∨ c = '7' ∨ c = '8' ∨ c = '9' := by
  simp [Char.isDigit] at h
  obtain ⟨h1, h2⟩ := h
  have h1n : 48 ≤ c.toNat := UInt32.le_toNat_of_le (by decide) h1
  have h2n : c.toNat ≤ 57 := UInt32.toNat_le_of_le (by decide) h2
  have hc := Char.ofNat_toNat c
  interval_cases h : c.toNat <;> rw [← hc] <;> decide

theorem digitChar_isDigit {n : Nat} (h : n < 10) : (digitChar n).isDigit = true := by
  interval_cases n <;> decide

theorem digitVal_digitChar {n : Nat} (h : n < 10) : digitVal (digitChar n) = n := by
  interval_cases n <;> decide

theorem digitChar_digitVal {c : Char} (h : c.isDigit = true) : digitChar (digitVal c) = c := by
  rcases char_digit_cases c h with h | h | h | h | h | h | h | h | h | h <;> subst h <;> decide

theorem digitVal_lt_ten {c : Char} (h : c.isDigit = true) : digitVal c < 10 := by
  rcases char_digit_cases c h with h | h | h | h | h | h | h | h | h | h <;> subst h <;> decide

theorem isJsWs_of_isDigit {c : Char} (h : c.isDigit = true) : isJsWs c = false := by
  rcases char_digit_cases c h with h | h | h | h | h | h | h | h | h | h <;> subst h <;> decide

theorem digitsToNat_append_digit (l : List Char) (c : Char) :
    digitsToNat (l ++ [c]) = 10 * digitsToNat l + digitVal c := by
  simp [digitsToNat, List.foldl_append]

theorem digitsToNat_natDigitsAux :
    ∀ fuel n, n < fuel → digitsToNat (natDigitsAux fuel n) = n := by
  intro fuel
  induction fuel with
  | zero => intro n hn; omega
  | succ f ih =>
    intro n hn
    rw [natDigitsAux]
    by_cases h10 : n < 10
    · rw [if_pos h10]
      simp [digitsToNat, digitVal_digitChar h10]
    · rw [if_neg h10, digitsToNat_append_digit, ih (n / 10) (by omega),
        digitVal_digitChar (Nat.mod_lt n (by omega))]
      omega

theorem digitsToNat_natDigits (n : Nat) : digitsToNat (natDigits n) = n :=
  digitsToNat_natDigitsAux (n + 1) n (Nat.lt_succ_self n)

theorem natDigitsAux_digits :
    ∀ fuel n, n < fuel → ∀ c ∈ natDigitsAux fuel n, c.isDigit = true := by
  intro fuel
  induction fuel with
  | zero => intro n hn; omega
  | succ f ih =>
    intro n hn c hc
    rw [natDigitsAux] at hc
    by_cases h10 : n < 10
    · rw [if_pos h10] at hc
      simp at hc
      subst hc
      exact digitChar_isDigit h10
    · rw [if_neg h10] at hc
      rcases List.mem_append.1 hc with h | h
      · exact ih (n / 10) (by omega) c h
      · simp at h
        subst h
        exact digitChar_isDigit (Nat.mod_lt n (by omega))

theorem natDigits_digits (n : Nat) : ∀ c ∈ natDigits n, c.isDigit = true :=
  natDigitsAux_digits (n + 1) n (Nat.lt_succ_self n)

theorem natDigits_ne_nil (n : Nat) : natDigits n ≠ [] := by
  rw [natDigits, natDigitsAux]
  by_cases h10 : n < 10
  · rw [if_pos h10]; simp
  · rw [if_neg h10]; simp

theorem natDigitsAux_length_le :
    ∀ fuel n k, n < fuel → n < 10 ^ (k + 1) → (natDigitsAux fuel n).length ≤ k + 1 := by
  intro fuel
  induction fuel with
  | zero => intro n k hn; omega
  | succ f ih =>
    intro n k hn hk
    rw [natDigitsAux]
    by_cases h10 : n < 10
    · rw [if_pos h10]; simp
    · rw [if_neg h10]
      cases k with
      | zero => simp at hk; omega
      | succ k2 =>
        have hdiv : n / 10 < 10 ^ (k2 + 1) := by
          rw [Nat.div_lt_iff_lt_mul (by omega)]
          calc n < 10 ^ (k2 + 1 + 1) := hk
          _ = 10 ^ (k2 + 1) * 10 := by ring
        have := ih (n / 10) k2 (by omega) hdiv
        simp [List.length_append]
        omega

theorem natDigits_length_le {n k : Nat} (h : n < 10 ^ (k + 1)) :
    (natDigits n).length ≤ k + 1 :=
  natDigitsAux_length_le (n + 1) n k (Nat.lt_succ_self n) h

theorem padNum_length {w n : Nat} (h : (natDigits n).length ≤ w) : (padNum w n).length = w := by
  simp [padNum]
  omega

theorem padNum4_length {n : Nat} (h : n ≤ 9999) : (padNum 4 n).length = 4 :=
  padNum_length (natDigits_length_le (k := 3) (by omega))

theorem padNum2_length {n : Nat} (h : n ≤ 99) : (padNum 2 n).length = 2 :=
  padNum_length (natDigits_length_le (k := 1) (by omega))

theorem padNum_digits (w n : Nat) : ∀ c ∈ padNum w n, c.isDigit = true := by
  intro c hc
  rcases List.mem_append.1 hc with h | h
  · rw [List.eq_of_mem_replicate h]; decide
  · exact natDigits_digits n c h

theorem digitsToNat_replicate_zero (z : Nat) (ds : List Char) :
    digitsToNat (List.replicate z '0' ++ ds) = digitsToNat ds := by
  induction z with
  | zero => simp
  | succ z2 ih =>
    rw [List.replicate_succ, List.cons_append]
    simpa [digitsToNat] using ih

theorem digitsToNat_padNum (w n : Nat) : digitsToNat (padNum w n) = n := by
  rw [padNum, digitsToNat_replicate_zero, digitsToNat_natDigits]

theorem padNum_ne_nil (w n : Nat) : padNum w n ≠ [] := by
  rw [padNum]
  intro h
  rcases List.append_eq_nil.1 h with ⟨_, h2⟩
  exact natDigits_ne_nil n h2

theorem natDigits_lt_ten {n : Nat} (h : n < 10) : natDigits n = [digitChar n] := by
  rw [natDigits, natDigitsAux, if_pos h]

theorem natDigits_two_digits {n : Nat} (h1 : 10 ≤ n) (h2 : n ≤ 99) :
    natDigits n = [digitChar (n / 10), digitChar (n % 10)] := by
  obtain ⟨f, rfl⟩ : ∃ f, n = f + 1 := ⟨n - 1, by omega⟩
  rw [natDigits, natDigitsAux, if_neg (by omega), natDigitsAux, if_pos (by omega)]
  simp

theorem padNum2_lt_ten {n : Nat} (h : n < 10) : padNum 2 n = ['0', digitChar n] := by
  rw [padNum, natDigits_lt_ten h]
  simp [List.replicate]

theorem padNum2_two_digits {n : Nat} (h1 : 10 ≤ n) (h2 : n ≤ 99) :
    padNum 2 n = [digitChar (n / 10), digitChar (n % 10)] := by
  rw [padNum, natDigits_two_digits h1 h2]
  simp

theorem padNum2_digit_pair {e f : Char} (he : e.isDigit = true) (hf : f.isDigit = true) :
    padNum 2 (digitsToNat [e, f]) = [e, f] := by
  have hve := digitVal_lt_ten he
  have hvf := digitVal_lt_ten hf
  have hval : digitsToNat [e, f] = 10 * digitVal e + digitVal f := by
    simp [digitsToNat]
  by_cases h : digitVal e = 0
  · have he0 : e = '0' := by rw [← digitChar_digitVal he, h]; rfl
    rw [hval, h]
    simp only [Nat.mul_zero, Nat.zero_add]
    rw [padNum2_lt_ten hvf, digitChar_digitVal hf, he0]
  · rw [hval, padNum2_two_digits (by omega) (by omega)]
    have h1 : (10 * digitVal e + digitVal f) / 10 = digitVal e := by omega
    have h2 : (10 * digitVal e + digitVal f) % 10 = digitVal f := by omega
    rw [h1, h2, digitChar_digitVal he, digitChar_digitVal hf]

theorem digitsToNat_le_99 {g : List Char} (hd : ∀ c ∈ g, c.isDigit = true)
    (hl : g.length ≤ 2) : digitsToNat g ≤ 99 := by
  match g, hl with
  | [], _ => simp [digitsToNat]
  | [a], _ =>
    have := digitVal_lt_ten (hd a (by simp))
    simp [digitsToNat]
    omega
  | [a, b], _ =>
    have := digitVal_lt_ten (hd a (by simp))
    have := digitVal_lt_ten (hd b (by simp))
    simp [digitsToNat]
    omega

theorem list_len2 {α : Type} (l : List α) (h : l.length = 2) : ∃ a b, l = [a, b] := by
  match l, h with
  | [a, b], _ => exact ⟨a, b, rfl⟩

theorem list_len4 {α : Type} (l : List α) (h : l.length = 4) : ∃ a b c d, l = [a, b, c, d] := by
  match l, h with
  | [a, b, c, d], _ => exact ⟨a, b, c, d, rfl⟩

theorem list_len10 {α : Type} (l : List α) (h : l.length = 10) :
    ∃ x0 x1 x2 x3 x4 x5 x6 x7 x8 x9, l = [x0, x1, x2, x3, x4, x5, x6, x7, x8, x9] := by
  match l, h with
  | [x0, x1, x2, x3, x4, x5, x6, x7, x8, x9], _ =>
    exact ⟨x0, x1, x2, x3, x4, x5, x6, x7, x8, x9, rfl⟩

/-! ## Helper lemmas: trimming -/

theorem dropWhile_head_prop (p : Char → Bool) :
    ∀ (l : List Char) (c : Char) (t : List Char), l.dropWhile p = c :: t → p c = false := by
  intro l
  induction l with
  | nil => intro c t h; simp [List.dropWhile] at h
  | cons x xs ih =>
    intro c t h
    by_cases hx : p x
    · rw [List.dropWhile_cons_of_pos hx] at h
      exact ih c t h
    · rw [List.dropWhile_cons_of_neg hx] at h
      cases h
      simpa using hx

theorem jsTrim_mk_eq_self (l : List Char)
    (h1 : ∀ c, l.head? = some c → isJsWs c = false)
    (h2 : ∀ c, l.getLast? = some c → isJsWs c = false) :
    jsTrim (String.mk l) = String.mk l := by
  cases l with
  | nil => rfl
  | cons x t =>
    have hx : isJsWs x = false := h1 x rfl
    rw [jsTrim]
    show String.mk ((((x :: t).dropWhile isJsWs).reverse.dropWhile isJsWs).reverse) = _
    rw [List.dropWhile_cons_of_neg (by simp [hx])]
    obtain ⟨c, rest, hcr⟩ : ∃ c rest, (x :: t).reverse = c :: rest := by
      cases hrev : (x :: t).reverse with
      | nil => simp at hrev
      | cons c rest => exact ⟨c, rest, rfl⟩
    have hcl : (x :: t).getLast? = some c := by
      rw [← List.head?_reverse, hcr]
      rfl
    have hcw : isJsWs c = false := h2 c hcl
    rw [hcr, List.dropWhile_cons_of_neg (by simp [hcw]), ← hcr, List.reverse_reverse]

theorem jsTrim_data (s : String) :
    (jsTrim s).data = ((s.data.dropWhile isJsWs).reverse.dropWhile isJsWs).reverse := rfl

theorem jsTrim_last (s : String) :
    ∀ c, (jsTrim s).data.getLast? = some c → isJsWs c = false := by
  intro c hc
  rw [jsTrim_data, List.getLast?_reverse] at hc
  obtain ⟨t, ht⟩ : ∃ t, (s.data.dropWhile isJsWs).reverse.dropWhile isJsWs = c :: t := by
    cases hd : (s.data.dropWhile isJsWs).reverse.dropWhile isJsWs with
    | nil => rw [hd] at hc; simp at hc
    | cons a t =>
      rw [hd] at hc
      simp at hc
      subst hc
      exact ⟨t, rfl⟩
  exact dropWhile_head_prop isJsWs _ c t ht

theorem jsTrim_head (s : String) :
    ∀ c, (jsTrim s).data.head? = some c → isJsWs c = false := by
  intro c hc
  rw [jsTrim_data, List.head?_reverse] at hc
  have hYne : (s.data.dropWhile isJsWs).reverse.dropWhile isJsWs ≠ [] := by
    intro h
    rw [h] at hc
    simp at hc
  have hsplit := List.takeWhile_append_dropWhile
    (p := isJsWs) (l := (s.data.dropWhile isJsWs).reverse)
  have hlast : (s.data.dropWhile isJsWs).reverse.getLast? = some c := by
    rw [← hsplit, List.getLast?_append_of_ne_nil _ hYne]
    exact hc
  rw [List.getLast?_reverse] at hlast
  obtain ⟨t, ht⟩ : ∃ t, s.data.dropWhile isJsWs = c :: t := by
    cases hd : s.data.dropWhile isJsWs with
    | nil => rw [hd] at hlast; simp at hlast
    | cons a t =>
      rw [hd] at hlast
      simp at hlast
      subst hlast
      exact ⟨t, rfl⟩
  exact dropWhile_head_prop isJsWs _ c t ht

theorem jsTrim_idem (s : String) : jsTrim (jsTrim s) = jsTrim s := by
  have h := jsTrim_mk_eq_self (jsTrim s).data (jsTrim_head s) (jsTrim_last s)
  exact h

theorem jsTrim_empty : jsTrim "" = "" := rfl

/-! ## Helper lemmas: constructed date keys and JS date building -/

theorem fdiv_coe_nat (a b : Nat) : ((a : Int)).fdiv (b : Int) = ((a / b : Nat) : Int) := by
  rw [Int.fdiv_eq_tdiv (by positivity) (by positivity)]
  exact_mod_cast (Int.ofNat_tdiv a b).symm

theorem fmod_coe_nat (a b : Nat) : ((a : Int)).fmod (b : Int) = ((a % b : Nat) : Int) := by
  rw [Int.fmod_eq_tmod (by positivity) (by positivity)]
  exact_mod_cast (Int.ofNat_tmod a b).symm

theorem validDateKey_decomp {s : String} (h : isValidDateKey s = true) :
    ∃ a b c d e f g i,
      s.data = [a, b, c, d, '/', e, f, '/', g, i] ∧
      a.isDigit = true ∧ b.isDigit = true ∧ c.isDigit = true ∧ d.isDigit = true ∧
      e.isDigit = true ∧ f.isDigit = true ∧ g.isDigit = true ∧ i.isDigit = true := by
  simp only [isValidDateKey, Bool.and_eq_true, beq_iff_eq, and_assoc] at h
  obtain ⟨hlen, h0, h1, h2, h3, h4, h5, h6, h7, h8, h9⟩ := h
  obtain ⟨x0, x1, x2, x3, x4, x5, x6, x7, x8, x9, hx⟩ := list_len10 s.data hlen
  rw [hx] at h0 h1 h2 h3 h4 h5 h6 h7 h8 h9
  simp only [List.getD_cons_zero, List.getD_cons_succ] at h0 h1 h2 h3 h4 h5 h6 h7 h8 h9
  subst h4
  subst h7
  exact ⟨x0, x1, x2, x3, x5, x6, x8, x9, hx, h0, h1, h2, h3, h5, h6, h8, h9⟩

theorem mkDateKey_parts {y m d : Nat} (hy : y ≤ 9999) (hm : m ≤ 99) (hd : d ≤ 99) :
    ∃ a b c e f g i j,
      (mkDateKey y m d).data = [a, b, c, e, '/', f, g, '/', i, j] ∧
      padNum 4 y = [a, b, c, e] ∧ padNum 2 m = [f, g] ∧ padNum 2 d = [i, j] := by
  obtain ⟨a, b, c, e, h4⟩ := list_len4 (padNum 4 y) (padNum4_length hy)
  obtain ⟨f, g, h2m⟩ := list_len2 (padNum 2 m) (padNum2_length hm)
  obtain ⟨i, j, h2d⟩ := list_len2 (padNum 2 d) (padNum2_length hd)
  refine ⟨a, b, c, e, f, g, i, j, ?_, h4, h2m, h2d⟩
  show padNum 4 y ++ '/' :: padNum 2 m ++ '/' :: padNum 2 d = _
  rw [h4, h2m, h2d]
  rfl

theorem isValidDateKey_mkDateKey {y m d : Nat} (hy : y ≤ 9999) (hm : m ≤ 99) (hd : d ≤ 99) :
    isValidDateKey (mkDateKey y m d) = true := by
  obtain ⟨a, b, c, e, f, g, i, j, hdata, h4, h2m, h2d⟩ := mkDateKey_parts hy hm hd
  have ha : a.isDigit = true := padNum_digits 4 y a (by rw [h4]; simp)
  have hb : b.isDigit = true := padNum_digits 4 y b (by rw [h4]; simp)
  have hc : c.isDigit = true := padNum_digits 4 y c (by rw [h4]; simp)
  have he : e.isDigit = true := padNum_digits 4 y e (by rw [h4]; simp)
  have hf : f.isDigit = true := padNum_digits 2 m f (by rw [h2m]; simp)
  have hg : g.isDigit = true := padNum_digits 2 m g (by rw [h2m]; simp)
  have hi : i.isDigit = true := padNum_digits 2 d i (by rw [h2d]; simp)
  have hj : j.isDigit = true := padNum_digits 2 d j (by rw [h2d]; simp)
  simp only [isValidDateKey, hdata]
  simp [ha, hb, hc, he, hf, hg, hi, hj, List.getD_cons_zero, List.getD_cons_succ]

theorem jsTrim_mkDateKey {y m d : Nat} (hy : y ≤ 9999) (hm : m ≤ 99) (hd : d ≤ 99) :
    jsTrim (mkDateKey y m d) = mkDateKey y m d := by
  obtain ⟨a, b, c, e, f, g, i, j, hdata, h4, h2m, h2d⟩ := mkDateKey_parts hy hm hd
  have ha : a.isDigit = true := padNum_digits 4 y a (by rw [h4]; simp)
  have hj : j.isDigit = true := padNum_digits 2 d j (by rw [h2d]; simp)
  have hs : mkDateKey y m d = String.mk [a, b, c, e, '/', f, g, '/', i, j] := by
    show String.mk _ = _
    rw [← hdata]
    rfl
  rw [hs]
  apply jsTrim_mk_eq_self
  · intro c2 hc2
    simp at hc2
    subst hc2
    exact isJsWs_of_isDigit ha
  · intro c2 hc2
    simp [List.getLast?] at hc2
    subst hc2
    exact isJsWs_of_isDigit hj

theorem mkDateKey_ne_empty {y m d : Nat} (hy : y ≤ 9999) (hm : m ≤ 99) (hd : d ≤ 99) :
    mkDateKey y m d ≠ "" := by
  obtain ⟨a, b, c, e, f, g, i, j, hdata, _, _, _⟩ := mkDateKey_parts hy hm hd
  intro h
  have := congrArg String.data h
  rw [hdata] at this
  simp at this

theorem mkDateKey_slices {y m d : Nat} (hy : y ≤ 9999) (hm : m ≤ 99) (hd : d ≤ 99) :
    (mkDateKey y m d).data.take 4 = padNum 4 y ∧
    ((mkDateKey y m d).data.drop 5).take 2 = padNum 2 m ∧
    (mkDateKey y m d).data.drop 8 = padNum 2 d := by
  obtain ⟨a, b, c, e, f, g, i, j, hdata, h4, h2m, h2d⟩ := mkDateKey_parts hy hm hd
  rw [hdata, h4, h2m, h2d]
  exact ⟨rfl, rfl, rfl⟩

theorem daysInMonthG_le (y m : Int) : daysInMonthG y m ≤ 31 := by
  simp only [daysInMonthG]
  split_ifs <;> omega

theorem daysInMonthG_pos (y m : Int) : 28 ≤ daysInMonthG y m := by
  simp only [daysInMonthG]
  split_ifs <;> omega

theorem normDay_stay (fuel : Nat) (y m d : Int) (h1 : 1 ≤ d) (h2 : d ≤ daysInMonthG y m) :
    normDay (fuel + 1) y m d = ⟨y, m, d⟩ := by
  simp only [normDay]
  rw [if_neg (by omega), if_neg (by omega)]

theorem jsMakeDate_in_range {y m d : Nat} (hy : 100 ≤ y) (hy2 : y ≤ 9999) (hm1 : 1 ≤ m)
    (hm2 : m ≤ 12) (hd1 : 1 ≤ d) (hd2 : (d : Int) ≤ daysInMonthG (y : Int) (m : Int)) :
    jsMakeDate (y : Int) ((m : Int) - 1) (d : Int) = ⟨(y : Int), (m : Int), (d : Int)⟩ := by
  rw [jsMakeDate]
  have hcond : (decide (0 ≤ (y : Int)) && decide ((y : Int) ≤ 99)) = false := by
    simp only [Bool.and_eq_false_iff, decide_eq_false_iff_not]
    right
    intro h
    have : (y : Int) ≤ 99 := h
    omega
  simp only [hcond, Bool.false_eq_true, if_false]
  have harg : ((y : Int) * 12 + ((m : Int) - 1)) = (((y * 12 + (m - 1) : Nat)) : Int) := by
    push_cast
    omega
  rw [harg]
  have hfd : (((y * 12 + (m - 1) : Nat)) : Int).fdiv 12 = (((y * 12 + (m - 1)) / 12 : Nat) : Int) := by
    exact_mod_cast fdiv_coe_nat (y * 12 + (m - 1)) 12
  have hfm : (((y * 12 + (m - 1) : Nat)) : Int).fmod 12 = (((y * 12 + (m - 1)) % 12 : Nat) : Int) := by
    exact_mod_cast fmod_coe_nat (y * 12 + (m - 1)) 12
  rw [hfd, hfm]
  have hq : (y * 12 + (m - 1)) / 12 = y := by omega
  have hr : (y * 12 + (m - 1)) % 12 = m - 1 := by omega
  rw [hq, hr]
  have hm3 : (((m - 1 : Nat)) : Int) + 1 = (m : Int) := by omega
  rw [hm3]
  exact normDay_stay 47 _ _ _ (by exact_mod_cast hd1) hd2

theorem dateKeyToDate_mkDateKey {y m d : Nat} (hy : 100 ≤ y) (hy2 : y ≤ 9999) (hm1 : 1 ≤ m)
    (hm2 : m ≤ 12) (hd1 : 1 ≤ d) (hd2 : (d : Int) ≤ daysInMonthG (y : Int) (m : Int)) :
    dateKeyToDate (mkDateKey y m d) = some ⟨(y : Int), (m : Int), (d : Int)⟩ := by
  have hd99 : d ≤ 99 := by
    have := daysInMonthG_le (y : Int) (m : Int)
    omega
  obtain ⟨ht4, ht52, ht8⟩ :=
    mkDateKey_slices (y := y) (m := m) (d := d) (by omega) (by omega) (by omega)
  rw [dateKeyToDate,
    if_pos (isValidDateKey_mkDateKey (y := y) (m := m) (d := d) (by omega) (by omega) (by omega)),
    ht4, ht52, ht8]
  simp only [digitsToNat_padNum]
  rw [if_neg (by simp; omega)]
  rw [jsMakeDate_in_range hy hy2 hm1 hm2 hd1 hd2]

/-! ## Helper lemmas: the legacy matcher and the normalizer branches -/

theorem takeUpTo2Digits_spec :
    ∀ l g r, takeUpTo2Digits l = (g, r) →
      l = g ++ r ∧ (∀ c ∈ g, c.isDigit = true) ∧ g.length ≤ 2 := by
  intro l g r h
  cases l with
  | nil =>
    simp [takeUpTo2Digits] at h
    obtain ⟨rfl, rfl⟩ := h
    simp
  | cons c1 rest =>
    by_cases h1 : c1.isDigit
    · cases rest with
      | nil =>
        simp [takeUpTo2Digits, h1] at h
        obtain ⟨rfl, rfl⟩ := h
        refine ⟨rfl, ?_, by simp⟩
        intro c hc
        simp at hc
        subst hc
        exact h1
      | cons c2 rest2 =>
        by_cases h2 : c2.isDigit
        · simp [takeUpTo2Digits, h1, h2] at h
          obtain ⟨rfl, rfl⟩ := h
          refine ⟨rfl, ?_, by simp⟩
          intro c hc
          rcases List.mem_pair.1 hc with rfl | rfl
          · exact h1
          · exact h2
        · simp [takeUpTo2Digits, h1, h2] at h
          obtain ⟨rfl, rfl⟩ := h
          refine ⟨rfl, ?_, by simp⟩
          intro c hc
          simp at hc
          subst hc
          exact h1
    · simp [takeUpTo2Digits, h1] at h
      obtain ⟨rfl, rfl⟩ := h
      simp

theorem legacyMatch_some {cs : List Char} {yd : List Char} {mo dd : Nat}
    (h : legacyMatch cs = some (yd, mo, dd)) :
    yd.length = 4 ∧ (∀ c ∈ yd, c.isDigit = true) ∧ mo ≤ 99 ∧ dd ≤ 99 := by
  rcases cs with _ | ⟨c1, _ | ⟨c2, _ | ⟨c3, _ | ⟨c4, _ | ⟨c5, rest⟩⟩⟩⟩⟩ <;>
    try simp [legacyMatch] at h
  obtain ⟨⟨⟨⟨⟨h1, h2⟩, h3⟩, h4⟩, hdot⟩, h⟩ := h
  split at h
  · exact absurd h (by simp)
  · rename_i g2 r2 hne htk
    split at h
    · rename_i c6 r3
      split at h
      · rename_i hc6
        split at h
        · exact absurd h (by simp)
        · rename_i g3 hne3 htk3
          simp only [Option.some.injEq, Prod.mk.injEq] at h
          obtain ⟨hyd, hmo, hdd⟩ := h
          obtain ⟨_, hg2dig, hg2len⟩ := takeUpTo2Digits_spec _ _ _ htk
          obtain ⟨_, hg3dig, hg3len⟩ := takeUpTo2Digits_spec _ _ _ htk3
          subst hyd
          refine ⟨rfl, ?_, ?_, ?_⟩
          · intro c hc
            rcases List.mem_cons.1 hc with rfl | hc2
            · exact h1
            rcases List.mem_cons.1 hc2 with rfl | hc3
            · exact h2
            rcases List.mem_cons.1 hc3 with rfl | hc4
            · exact h3
            simp at hc4
            subst hc4
            exact h4
          · rw [← hmo]
            exact digitsToNat_le_99 hg2dig hg2len
          · rw [← hdd]
            exact digitsToNat_le_99 hg3dig hg3len
        · exact absurd h (by simp)
      · exact absurd h (by simp)
    · exact absurd h (by simp)

theorem key10_props {a b c e f g i j : Char}
    (ha : a.isDigit = true) (hb : b.isDigit = true) (hc : c.isDigit = true)
    (he : e.isDigit = true) (hf : f.isDigit = true) (hg : g.isDigit = true)
    (hi : i.isDigit = true) (hj : j.isDigit = true) :
    isValidDateKey (String.mk [a, b, c, e, '/', f, g, '/', i, j]) = true ∧
    jsTrim (String.mk [a, b, c, e, '/', f, g, '/', i, j]) =
      String.mk [a, b, c, e, '/', f, g, '/', i, j] ∧
    String.mk [a, b, c, e, '/', f, g, '/', i, j] ≠ "" := by
  refine ⟨?_, ?_, ?_⟩
  · simp [isValidDateKey, ha, hb, hc, he, hf, hg, hi, hj,
      List.getD_cons_zero, List.getD_cons_succ]
  · apply jsTrim_mk_eq_self
    · intro c2 hc2
      simp at hc2
      subst hc2
      exact isJsWs_of_isDigit ha
    · intro c2 hc2
      simp [List.getLast?] at hc2
      subst hc2
      exact isJsWs_of_isDigit hj
  · intro hcontra
    have := congrArg String.data hcontra
    simp at this

theorem validDateKey_trim {s : String} (h : isValidDateKey s = true) : jsTrim s = s := by
  obtain ⟨a, b, c, d, e, f, g, i, hdata, ha, _, _, _, _, _, _, hi⟩ := validDateKey_decomp h
  have hs : s = String.mk [a, b, c, d, '/', e, f, '/', g, i] := by
    cases s
    simp at hdata
    rw [hdata]
  rw [hs]
  apply jsTrim_mk_eq_self
  · intro c2 hc2
    simp at hc2
    subst hc2
    exact isJsWs_of_isDigit ha
  · intro c2 hc2
    simp [List.getLast?] at hc2
    subst hc2
    exact isJsWs_of_isDigit hi

theorem validDateKey_ne_empty {s : String} (h : isValidDateKey s = true) : s ≠ "" := by
  intro hcontra
  rw [hcontra] at h
  simp [isValidDateKey] at h

theorem normalize_strVal_def (s0 : String) :
    normalizeMeetingDateKey (.strVal s0) =
      (if jsTrim s0 = "" then ""
       else if isValidDateKey (jsTrim s0) then jsTrim s0
       else
         match legacyMatch (jsTrim s0).data with
         | some (yd, mo, dd) => String.mk (yd ++ '/' :: padNum 2 mo ++ '/' :: padNum 2 dd)
         | none => "") := rfl

theorem normalize_strVal_valid {s : String} (h : isValidDateKey s = true) :
    normalizeMeetingDateKey (.strVal s) = s := by
  rw [normalize_strVal_def, validDateKey_trim h, if_neg (validDateKey_ne_empty h), if_pos h]

theorem legacyRewrite_props {yd : List Char} {mo dd : Nat} (hlen : yd.length = 4)
    (hdig : ∀ c ∈ yd, c.isDigit = true) (hmo : mo ≤ 99) (hdd : dd ≤ 99) :
    isValidDateKey (String.mk (yd ++ '/' :: padNum 2 mo ++ '/' :: padNum 2 dd)) = true ∧
    jsTrim (String.mk (yd ++ '/' :: padNum 2 mo ++ '/' :: padNum 2 dd)) =
      String.mk (yd ++ '/' :: padNum 2 mo ++ '/' :: padNum 2 dd) ∧
    String.mk (yd ++ '/' :: padNum 2 mo ++ '/' :: padNum 2 dd) ≠ "" := by
  obtain ⟨a, b, c, e, h4⟩ := list_len4 yd hlen
  obtain ⟨f, g, h2m⟩ := list_len2 _ (padNum2_length hmo)
  obtain ⟨i, j, h2d⟩ := list_len2 _ (padNum2_length hdd)
  have ha : a.isDigit = true := hdig a (by rw [h4]; simp)
  have hb : b.isDigit = true := hdig b (by rw [h4]; simp)
  have hc : c.isDigit = true := hdig c (by rw [h4]; simp)
  have he : e.isDigit = true := hdig e (by rw [h4]; simp)
  have hf : f.isDigit = true := padNum_digits 2 mo f (by rw [h2m]; simp)
  have hg : g.isDigit = true := padNum_digits 2 mo g (by rw [h2m]; simp)
  have hi : i.isDigit = true := padNum_digits 2 dd i (by rw [h2d]; simp)
  have hj : j.isDigit = true := padNum_digits 2 dd j (by rw [h2d]; simp)
  have hlist : yd ++ '/' :: padNum 2 mo ++ '/' :: padNum 2 dd =
      [a, b, c, e, '/', f, g, '/', i, j] := by
    rw [h4, h2m, h2d]
    rfl
  rw [hlist]
  exact key10_props ha hb hc he hf hg hi hj

theorem normalize_dateVal_def (y m d : Nat) :
    normalizeMeetingDateKey (.dateVal y m d) = mkDateKey y m d := rfl

theorem normalize_output_valid (x : DateCell) (hwf : x.widthOk)
    (hne : normalizeMeetingDateKey x ≠ "") :
    isValidDateKey (normalizeMeetingDateKey x) = true := by
  cases x with
  | dateVal y m d =>
    obtain ⟨hy, hm, hd⟩ := hwf
    rw [normalize_dateVal_def]
    exact isValidDateKey_mkDateKey hy hm hd
  | strVal s0 =>
    rw [normalize_strVal_def] at hne ⊢
    by_cases h0 : jsTrim s0 = ""
    · rw [if_pos h0] at hne
      exact absurd rfl hne
    · rw [if_neg h0] at hne ⊢
      by_cases hv : isValidDateKey (jsTrim s0)
      · rw [if_pos hv]
        exact hv
      · rw [if_neg hv] at hne ⊢
        cases hlm : legacyMatch (jsTrim s0).data with
        | none =>
          rw [hlm] at hne
          exact absurd rfl hne
        | some p =>
          obtain ⟨yd, mo, dd⟩ := p
          obtain ⟨hlen, hdig, hmo, hdd⟩ := legacyMatch_some hlm
          show isValidDateKey (String.mk (yd ++ '/' :: padNum 2 mo ++ '/' :: padNum 2 dd)) = true
          exact (legacyRewrite_props hlen hdig hmo hdd).1

/-! ## Helper lemmas: sorting, enum lookup and the write path -/

theorem mem_insertByTsDesc (x a : RawItem) (l : List RawItem) :
    a ∈ insertByTsDesc x l ↔ a = x ∨ a ∈ l := by
  induction l with
  | nil => simp [insertByTsDesc]
  | cons y ys ih =>
    rw [insertByTsDesc]
    by_cases h : y.ts.getD 0 < x.ts.getD 0
    · rw [if_pos h]
      simp [List.mem_cons]
    · rw [if_neg h]
      simp only [List.mem_cons, ih]
      tauto

theorem length_insertByTsDesc (x : RawItem) (l : List RawItem) :
    (insertByTsDesc x l).length = l.length + 1 := by
  induction l with
  | nil => simp [insertByTsDesc]
  | cons y ys ih =>
    rw [insertByTsDesc]
    by_cases h : y.ts.getD 0 < x.ts.getD 0
    · rw [if_pos h]
      simp
    · rw [if_neg h]
      simp [ih]

theorem mem_foldl_insertByTsDesc :
    ∀ (l acc : List RawItem) (a : RawItem),
      a ∈ l.foldl (fun acc x => insertByTsDesc x acc) acc ↔ a ∈ acc ∨ a ∈ l := by
  intro l
  induction l with
  | nil => simp
  | cons x xs ih =>
    intro acc a
    rw [List.foldl_cons, ih, mem_insertByTsDesc]
    simp [List.mem_cons]
    tauto

theorem mem_sortByTsDesc (a : RawItem) (l : List RawItem) :
    a ∈ sortByTsDesc l ↔ a ∈ l := by
  rw [sortByTsDesc, mem_foldl_insertByTsDesc]
  simp

theorem length_foldl_insertByTsDesc :
    ∀ (l acc : List RawItem),
      (l.foldl (fun acc x => insertByTsDesc x acc) acc).length = acc.length + l.length := by
  intro l
  induction l with
  | nil => simp
  | cons x xs ih =>
    intro acc
    rw [List.foldl_cons, ih, length_insertByTsDesc]
    simp [List.length_cons]
    omega

theorem length_sortByTsDesc (l : List RawItem) : (sortByTsDesc l).length = l.length := by
  rw [sortByTsDesc, length_foldl_insertByTsDesc]
  simp

theorem enumLabel_code_ne_empty {M : List (String × String)} {code lb : String}
    (hM : ∀ p ∈ M, p.1 ≠ "") (h : enumLabel M code = some lb) : code ≠ "" := by
  rw [enumLabel] at h
  cases hf : M.find? (fun p => p.1 == code) with
  | none => rw [hf] at h; simp at h
  | some p =>
    have hp := List.find?_some hf
    simp at hp
    have hmem := List.mem_of_find?_eq_some hf
    intro hcontra
    exact hM p hmem (by rw [hp, hcontra])

theorem getStatus_cache_head (rows : List Row) (cache : List (String × StatusView))
    (key : String) (v : StatusView) (hv : isValidDateKey key = true) :
    getStatus ⟨rows, (statusCacheKey key, v) :: cache⟩ key = some v := by
  rw [getStatus, if_pos hv]
  simp [List.find?]

theorem statusKeep_dateVal_row (clock : Clock) (stored teamLabel typeLabel : String)
    {y m d : Nat} (hy : y ≤ 9999) (hm : m ≤ 99) (hd : d ≤ 99) :
    statusKeep (mkDateKey y m d)
      ⟨.dateTs clock.millis clock.timeText, stored, teamLabel, typeLabel, .dateVal y m d⟩ =
    some
      { nickname := jsTrim stored
        team := optCode (labelToCode TEAM_LABEL (jsTrim teamLabel))
        teamLabel := jsTrim teamLabel
        meetingType := optCode (labelToCode MEETING_TYPE_LABEL (jsTrim typeLabel))
        meetingTypeLabel := jsTrim typeLabel
        meetingDate := mkDateKey y m d
        timeText := clock.timeText
        ts := some clock.millis } := by
  rw [statusKeep]
  simp only [normalize_dateVal_def]
  rw [if_neg (mkDateKey_ne_empty hy hm hd), if_neg (by simp)]
  rfl

theorem getStatusForDate_append_mem (rows : List Row) (row : Row) (key : String) (it : RawItem)
    (hkeep : statusKeep key row = some it) :
    it.strip ∈ (getStatusForDate (rows ++ [row]) key).items := by
  rw [getStatusForDate, if_neg (by simp)]
  show it.strip ∈ (sortByTsDesc ((rows ++ [row]).filterMap (statusKeep key))).map RawItem.strip
  apply List.mem_map_of_mem
  rw [mem_sortByTsDesc, List.filterMap_append]
  apply List.mem_append_right
  simp [hkeep]

/-- The nickname doPost stores for a submission (TEST replaced by a stamped
name, everything else trimmed only). -/
def storedNickOf (nickname : String) (clock : Clock) : String :=
  if jsToUpper (jsTrim nickname) = "TEST" then "TEST_" ++ clock.stamp else jsTrim nickname

/-- The sheet row doPost appends for a valid submission. -/
def writtenRow (clock : Clock) (stored teamLabel typeLabel : String) (y m d : Nat) : Row :=
  ⟨.dateTs clock.millis clock.timeText, stored, teamLabel, typeLabel, .dateVal y m d⟩

theorem ofCivil_natCast (y m d : Nat) :
    DateCell.ofCivil ⟨(y : Int), (m : Int), (d : Int)⟩ = .dateVal y m d := by
  simp [DateCell.ofCivil]

theorem recordAttendance_success (st : St) (clock : Clock) (nickname team mtype : String)
    {y m d : Nat} {teamLabel typeLabel : String}
    (hy : 100 ≤ y) (hy2 : y ≤ 9999) (hm1 : 1 ≤ m) (hm2 : m ≤ 12) (hd1 : 1 ≤ d)
    (hd2 : (d : Int) ≤ daysInMonthG (y : Int) (m : Int))
    (hnick : jsTrim nickname ≠ "")
    (hteam : enumLabel TEAM_LABEL (jsToUpper (jsTrim team)) = some teamLabel)
    (htype : enumLabel MEETING_TYPE_LABEL (jsToUpper (jsTrim mtype)) = some typeLabel) :
    recordAttendance st clock nickname team mtype (mkDateKey y m d) =
      (some (storedNickOf nickname clock,
          getStatusForDate
            (st.rows ++ [writtenRow clock (storedNickOf nickname clock) teamLabel typeLabel y m d])
            (mkDateKey y m d)),
        ⟨st.rows ++ [writtenRow clock (storedNickOf nickname clock) teamLabel typeLabel y m d],
          (statusCacheKey (mkDateKey y m d),
            getStatusForDate
              (st.rows ++
                [writtenRow clock (storedNickOf nickname clock) teamLabel typeLabel y m d])
              (mkDateKey y m d)) :: st.statusCache⟩) := by
  have hd99 : d ≤ 99 := by
    have := daysInMonthG_le (y : Int) (m : Int)
    omega
  have hkey : jsTrim (mkDateKey y m d) = mkDateKey y m d :=
    jsTrim_mkDateKey hy2 (by omega) hd99
  have hkne : mkDateKey y m d ≠ "" := mkDateKey_ne_empty hy2 (by omega) hd99
  have hteamne : jsToUpper (jsTrim team) ≠ "" :=
    enumLabel_code_ne_empty (by decide) hteam
  have htypene : jsToUpper (jsTrim mtype) ≠ "" :=
    enumLabel_code_ne_empty (by decide) htype
  simp only [recordAttendance, hkey]
  rw [if_neg (by push_neg; exact ⟨hnick, hteamne, htypene, hkne⟩)]
  rw [if_pos (isValidDateKey_mkDateKey hy2 (by omega) hd99)]
  rw [hteam, htype, dateKeyToDate_mkDateKey hy hy2 hm1 hm2 hd1 hd2]
  show (some _, _) = _
  rw [ofCivil_natCast]
  rfl

theorem legacyMatch_shape {cs : List Char} {yd : List Char} {mo dd : Nat}
    (h : legacyMatch cs = some (yd, mo, dd)) : ∃ rest, cs = yd ++ '.' :: rest := by
  rcases cs with _ | ⟨c1, _ | ⟨c2, _ | ⟨c3, _ | ⟨c4, _ | ⟨c5, rest⟩⟩⟩⟩⟩ <;>
    try simp [legacyMatch] at h
  obtain ⟨⟨⟨⟨⟨h1, h2⟩, h3⟩, h4⟩, hdot⟩, h⟩ := h
  subst hdot
  split at h
  · exact absurd h (by simp)
  · rename_i g2 r2 hne htk
    split at h
    · rename_i c6 r3
      split at h
      · rename_i hc6
        split at h
        · exact absurd h (by simp)
        · rename_i g3 hne3 htk3
          simp only [Option.some.injEq, Prod.mk.injEq] at h
          obtain ⟨hyd, _, _⟩ := h
          subst hyd
          exact ⟨rest, rfl⟩
        · exact absurd h (by simp)
      · exact absurd h (by simp)
    · exact absurd h (by simp)

theorem validKey_false_of_dot (yd rest : List Char) (hlen : yd.length = 4) :
    isValidDateKey (String.mk (yd ++ '.' :: rest)) = false := by
  obtain ⟨a, b, c, e, h4⟩ := list_len4 yd hlen
  subst h4
  simp [isValidDateKey, List.getD_cons_succ, List.getD_cons_zero]

theorem string_mk_ne_empty_of_cons {cs : List Char} (h : cs ≠ []) : String.mk cs ≠ "" := by
  intro hcontra
  have := congrArg String.data hcontra
  simp at this
  exact h this

/-! ## The claims -/

/-- Claim C1, counterexample: eligibleDayCount of the month key 2026-01 does
not return 13; January 2026 (which begins on a Thursday) has 14 days that
are a Tuesday, a Thursday or a Saturday. -/
theorem eligibleDayCount_jan2026_ne_13 : countPossibleMeetingsForMonth "2026-01" ≠ 13 := by
  decide

/-- Claim C1 (amended): CalendarPolicy's eligibleDayCount applied to the
month key 2026-01 returns 14, the count of Tuesdays, Thursdays and Saturdays
in January 2026, matching a brute-force reference that enumerates every day
of that month (via Zeller's congruence) and counts those whose weekday is
Tuesday, Thursday or Saturday. -/
theorem eligibleDayCount_jan2026_eq_14_matches_reference :
    countPossibleMeetingsForMonth "2026-01" = 14 ∧ specReferenceJan2026Count = 14 := by
  decide

/-- Claim C2, counterexample: the well-formed but non-calendar month key
2026-13 passes the regex, rolls over to January 2027 inside the JavaScript
Date, and yields that month's count 13 instead of 0. -/
theorem eligibleDayCount_2026_13_ne_zero :
    countPossibleMeetingsForMonth "2026-13" = 13 ∧
    countPossibleMeetingsForMonth "2026-13" ≠ 0 := by
  decide

/-- Claim C2 (amended): eligibleDayCount returns 0 for every string that
fails the month-key regex (such as "abc"); a regex-valid key whose month
field is out of range (such as "2026-13") is instead folded into a later
calendar month by JavaScript Date normalization and yields that month's
count. -/
theorem eligibleDayCount_invalid_regex_eq_zero (s : String)
    (h : isValidMonthKey s = false) : countPossibleMeetingsForMonth s = 0 := by
  rw [countPossibleMeetingsForMonth, if_neg (by simp [h])]

/-- Witness for the amended claim C2 at the concrete input "abc". -/
theorem eligibleDayCount_invalid_regex_eq_zero_witness :
    isValidMonthKey "abc" = false ∧ countPossibleMeetingsForMonth "abc" = 0 :=
  ⟨by decide, eligibleDayCount_invalid_regex_eq_zero "abc" (by decide)⟩

/-- Claim C3, code bug: on the empty store the Code.gs history view carries
an empty mapping under the misnamed field summary and no summaryByType field
at all, while the populated path (third conjunct) does emit summaryByType
with the per-label counts the claim describes. -/
theorem history_empty_store_summaryByType_absent :
    (getHistoryForNicknameMonth [] "alice" "2026-01").summaryByType = none ∧
    (getHistoryForNicknameMonth [] "alice" "2026-01").summary = some [] ∧
    (getHistoryForNicknameMonth
        [⟨.dateTs 0 "t", "alice", "1팀", "화요일", .strVal "2026/01/06"⟩]
        "alice" "2026-01").summaryByType = some [("화요일", 1)] := by
  decide

/-- Claim C4: for every HistoryView the aggregator produces, totalPossible
is CalendarPolicy's count for the requested month, count is the number of
kept records, and attendanceRate is min(100, round(count / totalPossible *
100)) when totalPossible is positive and 0 otherwise. -/
theorem history_attendanceRate_formula (rows : List Row) (nickname monthKey : String) :
    (getHistoryForNicknameMonth rows nickname monthKey).totalPossible =
      countPossibleMeetingsForMonth monthKey ∧
    (getHistoryForNicknameMonth rows nickname monthKey).count =
      (historyKept rows nickname monthKey).length ∧
    (getHistoryForNicknameMonth rows nickname monthKey).attendanceRate =
      (if 0 < countPossibleMeetingsForMonth monthKey then
        min 100 (roundPct (historyKept rows nickname monthKey).length
          (countPossibleMeetingsForMonth monthKey))
      else 0) := by
  cases rows with
  | nil =>
    refine ⟨rfl, rfl, ?_⟩
    show 0 = _
    by_cases hp : 0 < countPossibleMeetingsForMonth monthKey
    · rw [if_pos hp]
      have : historyKept [] nickname monthKey = [] := rfl
      rw [this]
      show 0 = min 100 (roundPct 0 (countPossibleMeetingsForMonth monthKey))
      rw [roundPct, Nat.mul_zero, Nat.zero_add,
        Nat.div_eq_of_lt (by omega)]
      rfl
    · rw [if_neg hp]
  | cons r rs =>
    simp only [getHistoryForNicknameMonth, List.isEmpty_cons, Bool.false_eq_true, if_false]
    refine ⟨trivial, ?_, ?_⟩
    · simp [List.length_map, length_sortByTsDesc]
    · simp only [List.length_map, length_sortByTsDesc]

/-- Claim C5, counterexample: the string " 2026/01/03" (leading space)
matches neither the canonical nor the legacy pattern, yet the normalizer
returns the non-empty key "2026/01/03" because it trims its input first —
so "every other input yields the empty result" fails as stated. -/
theorem normalize_untrimmed_valid_key_nonempty :
    isValidDateKey " 2026/01/03" = false ∧
    legacyMatch (" 2026/01/03").data = none ∧
    normalizeMeetingDateKey (.strVal " 2026/01/03") = "2026/01/03" ∧
    ("2026/01/03" : String) ≠ "" := by
  decide

/-- Claim C5 (amended): normalize is total on strings and, after first
trimming white space from the input, acts by the claimed trichotomy: a
string already matching the canonical pattern is returned unchanged; a
trimmed input matching the legacy dotted pattern is rewritten as yyyy/MM/dd
with month and day zero-padded; every input whose trimmed form matches
neither pattern (including the empty string and "N/A") yields the empty
result rather than an error. -/
theorem normalize_trichotomy_after_trim (s : String) :
    (isValidDateKey s = true → normalizeMeetingDateKey (.strVal s) = s) ∧
    (∀ yd mo dd, legacyMatch (jsTrim s).data = some (yd, mo, dd) →
      normalizeMeetingDateKey (.strVal s) =
        String.mk (yd ++ '/' :: padNum 2 mo ++ '/' :: padNum 2 dd)) ∧
    (isValidDateKey (jsTrim s) = false → legacyMatch (jsTrim s).data = none →
      normalizeMeetingDateKey (.strVal s) = "") := by
  refine ⟨fun h => normalize_strVal_valid h, ?_, ?_⟩
  · intro yd mo dd hlm
    obtain ⟨hlen, _, _, _⟩ := legacyMatch_some hlm
    obtain ⟨rest, hshape⟩ := legacyMatch_shape hlm
    have hts : jsTrim s = String.mk ((jsTrim s).data) := rfl
    have hne : jsTrim s ≠ "" := by
      rw [hts, hshape]
      apply string_mk_ne_empty_of_cons
      intro hcontra
      rcases List.append_eq_nil.1 hcontra with ⟨_, h2⟩
      simp at h2
    have hval : isValidDateKey (jsTrim s) = false := by
      rw [hts, hshape]
      exact validKey_false_of_dot yd rest hlen
    rw [normalize_strVal_def, if_neg hne, if_neg (by simp [hval]), hlm]
  · intro hval hnone
    rw [normalize_strVal_def]
    by_cases h0 : jsTrim s = ""
    · rw [if_pos h0]
    · rw [if_neg h0, if_neg (by simp [hval]), hnone]

/-- Witness for the amended claim C5: the legacy input "2026. 1. 3" is
rewritten to the padded key 2026/01/03. -/
theorem normalize_trichotomy_after_trim_witness :
    legacyMatch (jsTrim "2026. 1. 3").data = some (['2', '0', '2', '6'], 1, 3) ∧
    normalizeMeetingDateKey (.strVal "2026. 1. 3") = "2026/01/03" := by
  refine ⟨by decide, ?_⟩
  have h := (normalize_trichotomy_after_trim "2026. 1. 3").2.1
    ['2', '0', '2', '6'] 1 3 (by decide)
  rw [h]
  decide

/-- Claim C6, counterexample: a native date rendering with a five-digit year
(the very Date the accepted write key "9999/99/99" stores) normalizes to the
non-empty string "10007/06/07", but feeding that back in yields the empty
string, so idempotence fails on such inputs. -/
theorem normalize_not_idempotent_five_digit_year :
    normalizeMeetingDateKey (.dateVal 10007 6 7) = "10007/06/07" ∧
    normalizeMeetingDateKey (.strVal (normalizeMeetingDateKey (.dateVal 10007 6 7))) ≠
      normalizeMeetingDateKey (.dateVal 10007 6 7) := by
  decide

/-- Claim C6 (amended): normalize is idempotent on every input whose
rendered components fit the yyyy/MM/dd field widths (every string input, and
every date cell whose year has at most four digits — the month and day of a
real date always fit): whenever normalize(x) is non-empty,
normalize(normalize(x)) equals normalize(x), and in particular a canonical
key fed back in returns itself. -/
theorem normalize_idempotent_width_ok (x : DateCell) (hwf : x.widthOk)
    (hne : normalizeMeetingDateKey x ≠ "") :
    normalizeMeetingDateKey (.strVal (normalizeMeetingDateKey x)) =
      normalizeMeetingDateKey x :=
  normalize_strVal_valid (normalize_output_valid x hwf hne)

/-- Witness for the amended claim C6 at the concrete legacy cell
"2026. 1. 3". -/
theorem normalize_idempotent_width_ok_witness :
    normalizeMeetingDateKey (.strVal "2026. 1. 3") ≠ "" ∧
    normalizeMeetingDateKey (.strVal (normalizeMeetingDateKey (.strVal "2026. 1. 3"))) =
      normalizeMeetingDateKey (.strVal "2026. 1. 3") :=
  ⟨by decide, normalize_idempotent_width_ok (.strVal "2026. 1. 3") trivial (by decide)⟩

/-- Claim C7: EnumCodec round-trips — for every code of the team enum and of
the meeting-type enum, looking up its label and reverse-mapping that label
through labelToCode returns the original code. -/
theorem enum_codec_round_trip :
    (TEAM_LABEL.map Prod.fst).all
      (fun c => labelToCode TEAM_LABEL ((enumLabel TEAM_LABEL c).getD "") == c) = true ∧
    (MEETING_TYPE_LABEL.map Prod.fst).all
      (fun c =>
        labelToCode MEETING_TYPE_LABEL ((enumLabel MEETING_TYPE_LABEL c).getD "") == c) =
      true := by
  decide

/-- Claim C8, counterexample: the key "2026/02/31" passes the write path's
regex validation (the write succeeds and a row is appended), but the stored
Date rolls over to 2026/03/03, so the immediately following getStatus for
"2026/02/31" — answered from the cache entry the write refreshed — contains
no items at all: the just-written record is missing. -/
theorem write_then_read_fails_for_rollover_date :
    ((recordAttendance ⟨[], []⟩ ⟨0, "tt", "ss"⟩ "A" "T1" "TUE" "2026/02/31").1).isSome =
      true ∧
    (recordAttendance ⟨[], []⟩ ⟨0, "tt", "ss"⟩ "A" "T1" "TUE" "2026/02/31").2.rows.length =
      1 ∧
    getStatus (recordAttendance ⟨[], []⟩ ⟨0, "tt", "ss"⟩ "A" "T1" "TUE" "2026/02/31").2
      "2026/02/31" = some ⟨"2026/02/31", 0, []⟩ := by
  decide

/-- Claim C8 (amended): for every valid write whose date key denotes an
actual calendar date with a year of at least 100 (so that JavaScript Date
construction round-trips the key), a getStatus for that key issued
immediately after recordAttendance — answered from the cache entry the write
itself refreshed — returns the very status computed after the append, and
that status's items include the projection of the just-written record. -/
theorem write_then_read_includes_record (st : St) (clock : Clock)
    (nickname team mtype : String) {y m d : Nat} {teamLabel typeLabel : String}
    (hy : 100 ≤ y) (hy2 : y ≤ 9999) (hm1 : 1 ≤ m) (hm2 : m ≤ 12) (hd1 : 1 ≤ d)
    (hd2 : (d : Int) ≤ daysInMonthG (y : Int) (m : Int))
    (hnick : jsTrim nickname ≠ "")
    (hteam : enumLabel TEAM_LABEL (jsToUpper (jsTrim team)) = some teamLabel)
    (htype : enumLabel MEETING_TYPE_LABEL (jsToUpper (jsTrim mtype)) = some typeLabel) :
    (recordAttendance st clock nickname team mtype (mkDateKey y m d)).1.map Prod.fst =
      some (storedNickOf nickname clock) ∧
    getStatus (recordAttendance st clock nickname team mtype (mkDateKey y m d)).2
      (mkDateKey y m d) =
      (recordAttendance st clock nickname team mtype (mkDateKey y m d)).1.map Prod.snd ∧
    { nickname := jsTrim (storedNickOf nickname clock)
      team := optCode (labelToCode TEAM_LABEL (jsTrim teamLabel))
      teamLabel := jsTrim teamLabel
      meetingType := optCode (labelToCode MEETING_TYPE_LABEL (jsTrim typeLabel))
      meetingTypeLabel := jsTrim typeLabel
      meetingDate := mkDateKey y m d
      timeText := clock.timeText : Item } ∈
      (((recordAttendance st clock nickname team mtype (mkDateKey y m d)).1.map
        Prod.snd).getD ⟨"", 0, []⟩).items := by
  have hd99 : d ≤ 99 := by
    have := daysInMonthG_le (y : Int) (m : Int)
    omega
  have hsucc := recordAttendance_success st clock nickname team mtype hy hy2 hm1 hm2 hd1 hd2
    hnick hteam htype
  rw [hsucc]
  refine ⟨rfl, ?_, ?_⟩
  · exact getStatus_cache_head _ _ _ _
      (isValidDateKey_mkDateKey (y := y) (m := m) (d := d) hy2 (by omega) hd99)
  · show _ ∈ (getStatusForDate
      (st.rows ++ [writtenRow clock (storedNickOf nickname clock) teamLabel typeLabel y m d])
      (mkDateKey y m d)).items
    have hkeep := statusKeep_dateVal_row clock (storedNickOf nickname clock) teamLabel
      typeLabel (y := y) (m := m) (d := d) hy2 (by omega) hd99
    exact getStatusForDate_append_mem st.rows _ _ _ hkeep

/-- Witness for the amended claim C8 at a concrete valid write. -/
theorem write_then_read_includes_record_witness :
    jsTrim "Alice" ≠ "" ∧
    enumLabel TEAM_LABEL (jsToUpper (jsTrim "T1")) = some "1팀" ∧
    enumLabel MEETING_TYPE_LABEL (jsToUpper (jsTrim "TUE")) = some "화요일" ∧
    ((recordAttendance ⟨[], []⟩ ⟨0, "tt", "ss"⟩ "Alice" "T1" "TUE"
        (mkDateKey 2026 1 6)).1.map Prod.fst =
      some (storedNickOf "Alice" ⟨0, "tt", "ss"⟩) ∧
    getStatus (recordAttendance ⟨[], []⟩ ⟨0, "tt", "ss"⟩ "Alice" "T1" "TUE"
        (mkDateKey 2026 1 6)).2 (mkDateKey 2026 1 6) =
      (recordAttendance ⟨[], []⟩ ⟨0, "tt", "ss"⟩ "Alice" "T1" "TUE"
        (mkDateKey 2026 1 6)).1.map Prod.snd ∧
    { nickname := jsTrim (storedNickOf "Alice" ⟨0, "tt", "ss"⟩)
      team := optCode (labelToCode TEAM_LABEL (jsTrim "1팀"))
      teamLabel := jsTrim "1팀"
      meetingType := optCode (labelToCode MEETING_TYPE_LABEL (jsTrim "화요일"))
      meetingTypeLabel := jsTrim "화요일"
      meetingDate := mkDateKey 2026 1 6
      timeText := ("tt" : String) : Item } ∈
      (((recordAttendance ⟨[], []⟩ ⟨0, "tt", "ss"⟩ "Alice" "T1" "TUE"
        (mkDateKey 2026 1 6)).1.map Prod.snd).getD ⟨"", 0, []⟩).items) := by
  have hteam : enumLabel TEAM_LABEL (jsToUpper (jsTrim "T1")) = some "1팀" := by decide
  have htype : enumLabel MEETING_TYPE_LABEL (jsToUpper (jsTrim "TUE")) = some "화요일" := by
    decide
  exact ⟨by decide, by decide, by decide,
    write_then_read_includes_record ⟨[], []⟩ ⟨0, "tt", "ss"⟩ "Alice" "T1" "TUE"
      (y := 2026) (m := 1) (d := 6)
      (by omega) (by omega) (by omega) (by omega) (by omega) (by decide) (by decide)
      hteam htype⟩

/-- Claim C9: on the write path a submitted nickname whose trimmed,
upper-cased form equals TEST is never stored verbatim — the stored nickname
is the generated TEST_ prefixed stamp — while every other nickname is stored
exactly as submitted after trimming; the stored nickname is both what the
response reports and what the appended row carries. -/
theorem test_nickname_replaced_on_write (st : St) (clock : Clock)
    (nickname team mtype : String) {y m d : Nat} {teamLabel typeLabel : String}
    (hy : 100 ≤ y) (hy2 : y ≤ 9999) (hm1 : 1 ≤ m) (hm2 : m ≤ 12) (hd1 : 1 ≤ d)
    (hd2 : (d : Int) ≤ daysInMonthG (y : Int) (m : Int))
    (hnick : jsTrim nickname ≠ "")
    (hteam : enumLabel TEAM_LABEL (jsToUpper (jsTrim team)) = some teamLabel)
    (htype : enumLabel MEETING_TYPE_LABEL (jsToUpper (jsTrim mtype)) = some typeLabel) :
    (recordAttendance st clock nickname team mtype (mkDateKey y m d)).1.map Prod.fst =
      some (storedNickOf nickname clock) ∧
    (recordAttendance st clock nickname team mtype (mkDateKey y m d)).2.rows =
      st.rows ++
        [writtenRow clock (storedNickOf nickname clock) teamLabel typeLabel y m d] ∧
    (jsToUpper (jsTrim nickname) = "TEST" →
      storedNickOf nickname clock = "TEST_" ++ clock.stamp ∧
      storedNickOf nickname clock ≠ jsTrim nickname) ∧
    (jsToUpper (jsTrim nickname) ≠ "TEST" →
      storedNickOf nickname clock = jsTrim nickname) := by
  have hsucc := recordAttendance_success st clock nickname team mtype hy hy2 hm1 hm2 hd1 hd2
    hnick hteam htype
  rw [hsucc]
  refine ⟨rfl, rfl, ?_, ?_⟩
  · intro hT
    constructor
    · rw [storedNickOf, if_pos hT]
    · rw [storedNickOf, if_pos hT]
      intro hcontra
      have h2 : (jsTrim nickname).data.length = 4 := by
        have hlen := congrArg (fun t : String => t.data.length) hT
        have h4 : ("TEST" : String).data.length = 4 := by decide
        simpa [jsToUpper, List.length_map, h4] using hlen
      have h1 := congrArg (fun t : String => t.data.length) hcontra
      have h5 : ("TEST_" : String).data.length = 5 := by decide
      simp [String.data_append, List.length_append, h5, h2] at h1
  · intro hT
    rw [storedNickOf, if_neg hT]

/-- Witness for claim C9: the nickname " test " trims and upper-cases to
TEST and is stored as the stamped TEST_ name, not verbatim. -/
theorem test_nickname_replaced_on_write_witness :
    jsToUpper (jsTrim " test ") = "TEST" ∧
    storedNickOf " test " ⟨0, "tt", "ss"⟩ = "TEST_" ++ ("ss" : String) ∧
    storedNickOf " test " ⟨0, "tt", "ss"⟩ ≠ jsTrim " test " ∧
    (recordAttendance ⟨[], []⟩ ⟨0, "tt", "ss"⟩ " test " "T1" "TUE"
        (mkDateKey 2026 1 6)).1.map Prod.fst =
      some (storedNickOf " test " ⟨0, "tt", "ss"⟩) := by
  have hteam : enumLabel TEAM_LABEL (jsToUpper (jsTrim "T1")) = some "1팀" := by decide
  have htype : enumLabel MEETING_TYPE_LABEL (jsToUpper (jsTrim "TUE")) = some "화요일" := by
    decide
  have h := test_nickname_replaced_on_write ⟨[], []⟩ ⟨0, "tt", "ss"⟩ " test " "T1" "TUE"
    (y := 2026) (m := 1) (d := 6)
    (by omega) (by omega) (by omega) (by omega) (by omega) (by decide) (by decide)
    hteam htype
  obtain ⟨hmap, _, hT, _⟩ := h
  obtain ⟨h1, h2⟩ := hT (by decide)
  exact ⟨by decide, h1, h2, hmap⟩

theorem legacyMatch_dotted (a b c d : Char) (ha : a.isDigit = true) (hb : b.isDigit = true)
    (hc : c.isDigit = true) (hd : d.isDigit = true) (mv dv : Nat) (hmv : mv ≤ 99)
    (hdv : dv ≤ 99) :
    legacyMatch ([a, b, c, d] ++ '.' :: ' ' :: natDigits mv ++ '.' :: ' ' :: natDigits dv) =
      some ([a, b, c, d], mv, dv) := by
  have hws : isJsWs ' ' = true := by decide
  have hdot : ('.' : Char).isDigit = false := by decide
  have hm10 : mv / 10 < 10 := by omega
  have hm1 : mv % 10 < 10 := by omega
  have hv10 : dv / 10 < 10 := by omega
  have hv1 : dv % 10 < 10 := by omega
  rcases Nat.lt_or_ge mv 10 with hm | hm <;> rcases Nat.lt_or_ge dv 10 with hv | hv
  · rw [natDigits_lt_ten hm, natDigits_lt_ten hv]
    simp [legacyMatch, takeUpTo2Digits, List.dropWhile_cons, ha, hb, hc, hd, hws, hdot,
      digitChar_isDigit hm, digitChar_isDigit hv, isJsWs_of_isDigit (digitChar_isDigit hm),
      isJsWs_of_isDigit (digitChar_isDigit hv), digitsToNat, digitVal_digitChar hm,
      digitVal_digitChar hv]
  · rw [natDigits_lt_ten hm, natDigits_two_digits hv hdv]
    simp [legacyMatch, takeUpTo2Digits, List.dropWhile_cons, ha, hb, hc, hd, hws, hdot,
      digitChar_isDigit hm, digitChar_isDigit hv10, digitChar_isDigit hv1,
      isJsWs_of_isDigit (digitChar_isDigit hm), isJsWs_of_isDigit (digitChar_isDigit hv10),
      digitsToNat, digitVal_digitChar hm, digitVal_digitChar hv10, digitVal_digitChar hv1]
    omega
  · rw [natDigits_two_digits hm hmv, natDigits_lt_ten hv]
    simp [legacyMatch, takeUpTo2Digits, List.dropWhile_cons, ha, hb, hc, hd, hws, hdot,
      digitChar_isDigit hv, digitChar_isDigit hm10, digitChar_isDigit hm1,
      isJsWs_of_isDigit (digitChar_isDigit hv), isJsWs_of_isDigit (digitChar_isDigit hm10),
      digitsToNat, digitVal_digitChar hv, digitVal_digitChar hm10, digitVal_digitChar hm1]
    omega
  · rw [natDigits_two_digits hm hmv, natDigits_two_digits hv hdv]
    simp [legacyMatch, takeUpTo2Digits, List.dropWhile_cons, ha, hb, hc, hd, hws, hdot,
      digitChar_isDigit hm10, digitChar_isDigit hm1, digitChar_isDigit hv10,
      digitChar_isDigit hv1, isJsWs_of_isDigit (digitChar_isDigit hm10),
      isJsWs_of_isDigit (digitChar_isDigit hv10), digitsToNat, digitVal_digitChar hm10,
      digitVal_digitChar hm1, digitVal_digitChar hv10, digitVal_digitChar hv1]
    omega

/-- Claim C10: the Sheets-backup date rendering round-trips through the
normalizer — for every string matching the canonical date-key regex,
converting it to the legacy dotted form (month and day without zero padding)
and then normalizing that string yields the original key again. -/
theorem sheets_date_format_normalize_round_trip (k : String)
    (h : isValidDateKey k = true) :
    normalizeMeetingDateKey (.strVal (formatDateKeyForSheets k)) = k := by
  obtain ⟨a, b, c, d, e, f, g, i, hdata, ha, hb, hc, hd, he, hf, hg, hi⟩ :=
    validDateKey_decomp h
  have hk : k = String.mk [a, b, c, d, '/', e, f, '/', g, i] := by
    cases k
    simp at hdata
    rw [hdata]
  have hfmt : formatDateKeyForSheets k =
      String.mk ([a, b, c, d] ++ '.' :: ' ' :: natDigits (digitsToNat [e, f]) ++
        '.' :: ' ' :: natDigits (digitsToNat [g, i])) := by
    rw [formatDateKeyForSheets, if_pos h, hdata]
    rfl
  rw [hfmt]
  have hmv99 : digitsToNat [e, f] ≤ 99 := by
    apply digitsToNat_le_99 _ (by simp)
    intro c2 hc2
    rcases List.mem_pair.1 hc2 with rfl | rfl
    · exact he
    · exact hf
  have hdv99 : digitsToNat [g, i] ≤ 99 := by
    apply digitsToNat_le_99 _ (by simp)
    intro c2 hc2
    rcases List.mem_pair.1 hc2 with rfl | rfl
    · exact hg
    · exact hi
  have hlm := legacyMatch_dotted a b c d ha hb hc hd (digitsToNat [e, f]) (digitsToNat [g, i])
    hmv99 hdv99
  have hlast : ([a, b, c, d] ++ '.' :: ' ' :: natDigits (digitsToNat [e, f]) ++
      '.' :: ' ' :: natDigits (digitsToNat [g, i])).getLast? =
      (natDigits (digitsToNat [g, i])).getLast? := by
    have hassoc : [a, b, c, d] ++ '.' :: ' ' :: natDigits (digitsToNat [e, f]) ++
        '.' :: ' ' :: natDigits (digitsToNat [g, i]) =
        ([a, b, c, d, '.', ' '] ++ natDigits (digitsToNat [e, f]) ++ ['.', ' ']) ++
          natDigits (digitsToNat [g, i]) := by
      simp
    rw [hassoc, List.getLast?_append_of_ne_nil _ (natDigits_ne_nil (digitsToNat [g, i]))]
  have htrim : jsTrim (String.mk ([a, b, c, d] ++ '.' :: ' ' ::
      natDigits (digitsToNat [e, f]) ++ '.' :: ' ' :: natDigits (digitsToNat [g, i]))) =
      String.mk ([a, b, c, d] ++ '.' :: ' ' :: natDigits (digitsToNat [e, f]) ++
        '.' :: ' ' :: natDigits (digitsToNat [g, i])) := by
    apply jsTrim_mk_eq_self
    · intro c2 hc2
      simp at hc2
      subst hc2
      exact isJsWs_of_isDigit ha
    · intro c2 hc2
      rw [hlast] at hc2
      have hmem : c2 ∈ natDigits (digitsToNat [g, i]) :=
        List.mem_of_mem_getLast? (by rw [hc2]; rfl)
      exact isJsWs_of_isDigit (natDigits_digits _ c2 hmem)
  have hne : String.mk ([a, b, c, d] ++ '.' :: ' ' :: natDigits (digitsToNat [e, f]) ++
      '.' :: ' ' :: natDigits (digitsToNat [g, i])) ≠ "" :=
    string_mk_ne_empty_of_cons (by simp)
  have hvf : isValidDateKey (String.mk ([a, b, c, d] ++ '.' :: ' ' ::
      natDigits (digitsToNat [e, f]) ++ '.' :: ' ' :: natDigits (digitsToNat [g, i]))) =
      false :=
    validKey_false_of_dot [a, b, c, d]
      (' ' :: natDigits (digitsToNat [e, f]) ++ '.' :: ' ' :: natDigits (digitsToNat [g, i]))
      (by simp)
  rw [normalize_strVal_def, htrim, if_neg hne,
    if_neg (by rw [Bool.not_eq_true]; exact hvf)]
  have hdata2 : (String.mk ([a, b, c, d] ++ '.' :: ' ' ::
      natDigits (digitsToNat [e, f]) ++ '.' :: ' ' :: natDigits (digitsToNat [g, i]))).data =
      [a, b, c, d] ++ '.' :: ' ' :: natDigits (digitsToNat [e, f]) ++
        '.' :: ' ' :: natDigits (digitsToNat [g, i]) := rfl
  rw [hdata2, hlm]
  show String.mk ([a, b, c, d] ++ '/' :: padNum 2 (digitsToNat [e, f]) ++
    '/' :: padNum 2 (digitsToNat [g, i])) = k
  rw [padNum2_digit_pair he hf, padNum2_digit_pair hg hi, hk]
  rfl

/-- Witness for claim C10 at the concrete key 2026/01/10 (rendered for the
sheet as "2026. 1. 10"). -/
theorem sheets_date_format_normalize_round_trip_witness :
    isValidDateKey "2026/01/10" = true ∧
    formatDateKeyForSheets "2026/01/10" = "2026. 1. 10" ∧
    normalizeMeetingDateKey (.strVal (formatDateKeyForSheets "2026/01/10")) = "2026/01/10" :=
  ⟨by decide, by decide,
    sheets_date_format_normalize_round_trip "2026/01/10" (by decide)⟩
